import Mathlib

/-!
Verification development for the stravinsky native core
(src/rust_native/src: git_analysis.rs, hybrid_graph.rs, import_analysis.rs,
lib.rs).  Rust strings are modelled as lists of characters, f64 scores as
exact rationals, fallible PyO3 functions as Except values, and the
unspecified iteration order of std HashMap / HashSet as an explicit
permutation parameter.  Syntax trees produced by the external tree-sitter
parsers are modelled as an explicit labelled rose tree that records, for
every node, its kind, 0-based row span, byte span, and labelled children
(the label models tree-sitter field names, as used by child_by_field_name).
-/

/-- Rust str and String values are modelled as lists of characters. -/
abbrev Str := List Char

/-- Whitespace test used by Rust str::trim (space, tab, carriage return, newline). -/
def isWS (c : Char) : Bool := c = ' ' || c = '\t' || c = '\r' || c = '\n'

/-- Model of Rust str::trim: remove leading and trailing whitespace. -/
def strTrim (s : Str) : Str :=
  ((s.dropWhile isWS).reverse.dropWhile isWS).reverse

/-- Split a character list at every occurrence of a single character. -/
def strSplitOnChar (sep : Char) : Str → List Str
  | [] => [[]]
  | c :: rest =>
    let r := strSplitOnChar sep rest
    if c = sep then [] :: r
    else
      match r with
      | [] => [[c]]
      | piece :: pieces => (c :: piece) :: pieces

/-- Fuel-driven worker for strSplitOnStr; the fuel is the length of the input. -/
def strSplitOnStrGo (sep : Str) : Nat → Str → List Str
  | _, [] => [[]]
  | 0, s => [s]
  | fuel + 1, c :: rest =>
    if sep.isPrefixOf (c :: rest) then
      [] :: strSplitOnStrGo sep fuel ((c :: rest).drop sep.length)
    else
      match strSplitOnStrGo sep fuel rest with
      | [] => [[c]]
      | piece :: pieces => (c :: piece) :: pieces

/-- Model of Rust str::split with a string pattern (leftmost, non-overlapping). -/
def strSplitOnStr (sep s : Str) : List Str :=
  if sep = [] then [s] else strSplitOnStrGo sep s.length s

/-- Model of Rust str::contains with a string pattern: substring containment. -/
def strContains (hay needle : Str) : Bool :=
  match hay with
  | [] => needle.isEmpty
  | _ :: rest => needle.isPrefixOf hay || strContains rest needle

/-- Model of Rust str::ends_with. -/
def strEndsWith (s pat : Str) : Bool :=
  pat.reverse.isPrefixOf s.reverse

/-- Quote characters stripped by the import extractor. -/
def isQuote (c : Char) : Bool := c = '\'' || c = '"'

/-- Model of Rust str::trim_matches with a quote-character predicate. -/
def trimQuotes (s : Str) : Str :=
  ((s.dropWhile isQuote).reverse.dropWhile isQuote).reverse

/-- Byte-span slice of the source text (source[start..stop] in the Rust code). -/
def sliceBytes (content : Str) (start stop : Nat) : Str :=
  (content.drop start).take (stop - start)

/-!
git_analysis.rs, get_related_files.

The function runs git twice.  The first run (probe) has its exit status
checked: a non-zero exit returns Ok(empty).  A spawn failure of either run
(for example a missing git binary) is turned into a PyIOError by map_err
and propagated with the question-mark operator; we model a spawn failure as
none and the propagated error as Except.error.  The second run (scan)
produces the stdout that is scanned; its exit status is never checked.
The co-occurrence HashMap is modelled as an association list in
first-insertion order, and the unspecified HashMap::into_iter order is an
explicit shuffle parameter applied before sorting.
-/

/-- Outcome of a completed external process: exit-status success flag and stdout. -/
structure ProcOutput where
  success : Bool
  stdout : Str
deriving DecidableEq

/-- Model of splitting the separator-tagged git log output into commit blocks:
split on the COMMIT_START token, then per block take the lines, trim each,
and drop empties (git_analysis.rs lines 56-61). -/
def parseCommitBlocks (stdoutSep : Str) : List (List Str) :=
  (strSplitOnStr "COMMIT_START".data stdoutSep).map
    (fun block => ((strSplitOnChar '\n' block).map strTrim).filter (fun l => l ≠ []))

/-- The target-containment test of git_analysis.rs line 64: exact equality or
the file ending with the target path. -/
def matchesTarget (target f : Str) : Bool :=
  f == target || strEndsWith f target

/-- Increment the count of a key in the association-list model of the
co-occurrence HashMap; a new key is appended, recording first-seen order. -/
def bump : List (Str × Nat) → Str → List (Str × Nat)
  | [], f => [(f, 1)]
  | (g, n) :: rest, f =>
    if g = f then (g, n + 1) :: rest else (g, n) :: bump rest f

/-- The co-occurrence counting loop of git_analysis.rs lines 56-73: for every
commit block containing the target, bump every other file of the block that
is neither equal to the target nor ends with it. -/
def coOccurrence (target stdoutSep : Str) : List (Str × Nat) :=
  (parseCommitBlocks stdoutSep).foldl
    (fun acc files =>
      if files.any (matchesTarget target) then
        files.foldl
          (fun acc2 file =>
            if file ≠ target ∧ strEndsWith file target = false then bump acc2 file
            else acc2)
          acc
      else acc)
    []

/-- Stable insertion into a list sorted descending by the given key: the new
element goes after every strictly larger element and before equal ones,
matching the stability of Rust slice::sort_by. -/
def insertDescBy {α β : Type} [LinearOrder β] (key : α → β) (p : α) : List α → List α
  | [] => [p]
  | q :: rest => if key p < key q then q :: insertDescBy key p rest else p :: q :: rest

/-- Stable sort, descending by the given key (model of Rust sort_by with a
reversed comparator, which is a stable sort). -/
def sortDescBy {α β : Type} [LinearOrder β] (key : α → β) : List α → List α
  | [] => []
  | p :: rest => insertDescBy key p (sortDescBy key rest)

/-- Sort the (path, count) entries by count descending and keep the first
limit of them (git_analysis.rs lines 75-81). -/
def relatedEntries (entries : List (Str × Nat)) (limit : Nat) : List (Str × Nat) :=
  (sortDescBy (fun p => p.2) entries).take limit

/-- The paths of the kept entries (git_analysis.rs lines 79-83). -/
def relatedFromEntries (entries : List (Str × Nat)) (limit : Nat) : List Str :=
  (relatedEntries entries limit).map Prod.fst

/-- Model of get_related_files (git_analysis.rs lines 10-85).  probe and scan
are the outcomes of the two git invocations (none models a spawn failure,
which map_err plus the question-mark operator turns into a propagated
PyIOError).  shuffle models the unspecified HashMap::into_iter iteration
order; theorems constrain it to permute its input. -/
def get_related_files (shuffle : List (Str × Nat) → List (Str × Nat))
    (target : Str) (limit : Nat)
    (probe scan : Option ProcOutput) : Except String (List Str) :=
  match probe with
  | none => Except.error "Failed to run git"
  | some o1 =>
    if o1.success then
      match scan with
      | none => Except.error "Failed to run git"
      | some o2 =>
        Except.ok (relatedFromEntries (shuffle (coOccurrence target o2.stdout)) limit)
    else Except.ok []

/-!
hybrid_graph.rs, get_hybrid_context.

Inputs that the Rust function obtains from its collaborators are explicit
parameters here: gitFiles is the list returned by get_related_files,
staticImports the list returned by get_imports on the target file (empty
when the file does not exist or the call fails, via unwrap_or_default), and
candOrder the iteration order of the all_candidates HashSet, which the
theorems constrain to be a permutation of the distinct elements of
gitFiles.  The f64 score arithmetic is modelled exactly over the rationals
(0.7, 0.5 and 0.2 are written 7/10, 1/2 and 1/5).
-/

/-- Association-list model of HashMap::insert: overwrite the value of an
existing key, otherwise append the new pair. -/
def insertOv : List (Str × Nat) → Str → Nat → List (Str × Nat)
  | [], k, v => [(k, v)]
  | (k0, v0) :: rest, k, v =>
    if k0 = k then (k, v) :: rest else (k0, v0) :: insertOv rest k v

/-- The git_map of hybrid_graph.rs lines 20-24: every file of the miner
output is inserted with value (total - index). -/
def buildGitMap (gitFiles : List Str) : List (Str × Nat) :=
  gitFiles.enum.foldl (fun m p => insertOv m p.2 (gitFiles.length - p.1)) []

/-- Lookup in the association-list map, defaulting to 0
(git_map.get(..).copied().unwrap_or(0) in hybrid_graph.rs line 59). -/
def lookupCount (m : List (Str × Nat)) (f : Str) : Nat :=
  match m.find? (fun p => p.1 == f) with
  | some p => p.2
  | none => 0

/-- Translation of an import specifier into a path fragment: split on dots
and join with slashes (hybrid_graph.rs lines 43-44). -/
def translateImport (imp : Str) : Str :=
  List.intercalate "/".data (strSplitOnChar '.' imp)

/-- The is_static test of hybrid_graph.rs lines 64-66: some translated
fragment of an import is a substring of the candidate path. -/
def staticHit (staticImports : List Str) (candidate : Str) : Bool :=
  staticImports.any (fun imp => strContains candidate (translateImport imp))

/-- The score computed in hybrid_graph.rs lines 68-86: 0.7 for a static
match, plus 0.5 * (gitRank / total) for a nonzero git rank, plus a 0.2
synergy bonus when both fire. -/
def hybridScore (gitFiles staticImports : List Str) (candidate : Str) : ℚ :=
  let gitRank := lookupCount (buildGitMap gitFiles) candidate
  (if staticHit staticImports candidate then (7 : ℚ)/10 else 0)
    + (if 0 < gitRank then (1 : ℚ)/2 * ((gitRank : ℚ) / (gitFiles.length : ℚ)) else 0)
    + (if staticHit staticImports candidate ∧ 0 < gitRank then (1 : ℚ)/5 else 0)

/-- The reasons string of hybrid_graph.rs lines 69-89: the fired signal
names in evaluation order, joined with a plus sign. -/
def hybridReasons (gitFiles staticImports : List Str) (candidate : Str) : Str :=
  List.intercalate "+".data
    ((if staticHit staticImports candidate then ["imported".data] else [])
      ++ (if 0 < lookupCount (buildGitMap gitFiles) candidate then ["git-history".data] else []))

/-- The scored_files accumulation of hybrid_graph.rs lines 58-91: visit the
candidates in HashSet order and keep those whose score reaches the
threshold, as (path, score, reasons) triples. -/
def scoredCandidates (gitFiles staticImports candOrder : List Str)
    (threshold : ℚ) : List (Str × ℚ × Str) :=
  candOrder.filterMap (fun c =>
    if threshold ≤ hybridScore gitFiles staticImports c then
      some (c, hybridScore gitFiles staticImports c, hybridReasons gitFiles staticImports c)
    else none)

/-- Model of get_hybrid_context (hybrid_graph.rs lines 9-97): score the
candidates, sort by score descending (stable), and keep the first limit. -/
def get_hybrid_context (gitFiles staticImports candOrder : List Str)
    (limit : Nat) (threshold : ℚ) : List (Str × ℚ × Str) :=
  (sortDescBy (fun x => x.2.1) (scoredCandidates gitFiles staticImports candOrder threshold)).take limit

/-- Rank weight as worded by the spec: number of miner candidates minus the
0-based rank of the file in the miner list, 0 when absent. -/
def specRankWeight (gitFiles : List Str) (candidate : Str) : Nat :=
  if candidate ∈ gitFiles then gitFiles.length - gitFiles.indexOf candidate else 0

/-- Score as worded by the spec: 0.7 if some translated import fragment is
a substring of the candidate path, plus 0.5 * (rankWeight / total) if the
rank weight is nonzero, plus a 0.2 synergy bonus when both conditions hold. -/
def specScore (gitFiles staticImports : List Str) (candidate : Str) : ℚ :=
  let w := specRankWeight gitFiles candidate
  (if staticHit staticImports candidate then (7 : ℚ)/10 else 0)
    + (if w ≠ 0 then (1 : ℚ)/2 * ((w : ℚ) / (gitFiles.length : ℚ)) else 0)
    + (if staticHit staticImports candidate ∧ w ≠ 0 then (1 : ℚ)/5 else 0)

/-!
Syntax-tree model.

tree-sitter trees (an external dependency: the repository code only walks
them) are modelled as labelled rose trees.  Every node records its kind, a
0-based row span, a byte span, and its children in document order; each
child carries an optional field label, which models tree-sitter field names
as consulted by child_by_field_name.  The mutual child-list type keeps all
recursion structural so that concrete trees evaluate inside the kernel.
-/

mutual
inductive TSNode : Type where
  | mk (kind : String) (startRow endRow startByte endByte : Nat) (children : TSChildList)
inductive TSChildList : Type where
  | nil
  | cons (label : Option String) (child : TSNode) (rest : TSChildList)
end

/-- Kind label of a node. -/
def TSNode.kind : TSNode → String
  | .mk k _ _ _ _ _ => k

/-- Start row (0-based) of a node. -/
def TSNode.startRow : TSNode → Nat
  | .mk _ sr _ _ _ _ => sr

/-- End row (0-based) of a node. -/
def TSNode.endRow : TSNode → Nat
  | .mk _ _ er _ _ _ => er

/-- Start byte of a node. -/
def TSNode.startByte : TSNode → Nat
  | .mk _ _ _ sb _ _ => sb

/-- End byte of a node. -/
def TSNode.endByte : TSNode → Nat
  | .mk _ _ _ _ eb _ => eb

/-- Children of a node. -/
def TSNode.children : TSNode → TSChildList
  | .mk _ _ _ _ _ cs => cs

/-- Model of tree-sitter child_by_field_name: the first child carrying the
given field label. -/
def childByField (fieldName : String) : TSChildList → Option TSNode
  | .nil => none
  | .cons lbl c rest =>
    if lbl = some fieldName then some c else childByField fieldName rest

/-- Convenience builder: a node from a list of labelled children. -/
def tsNode (kind : String) (startRow endRow startByte endByte : Nat)
    (cs : List (Option String × TSNode)) : TSNode :=
  TSNode.mk kind startRow endRow startByte endByte
    (cs.foldr (fun p acc => TSChildList.cons p.1 p.2 acc) TSChildList.nil)

/-!
The file import_analysis.rs: get_imports and its two collectors.
-/

/-- The inner loop of collect_python_imports for an import_statement
(import_analysis.rs lines 58-67): dotted_name children are sliced directly,
aliased_import children contribute their name field. -/
def pyImportStmtNames (source : Str) : TSChildList → List Str
  | .nil => []
  | .cons _ c rest =>
    (if c.kind = "dotted_name" then
      [sliceBytes source c.startByte c.endByte]
    else if c.kind = "aliased_import" then
      match childByField "name" c.children with
      | some nameNode => [sliceBytes source nameNode.startByte nameNode.endByte]
      | none => []
    else [])
      ++ pyImportStmtNames source rest

mutual
/-- Model of collect_python_imports (import_analysis.rs lines 45-80): an
ordinary import statement node with a name field contributes its dotted or
aliased names, an import_from_statement contributes its module_name slice,
and the walk recurses into all children. -/
def collect_python_imports (source : Str) : TSNode → List Str
  | .mk kind _ _ _ _ cs =>
    (if kind = "import_statement" then
      match childByField "name" cs with
      | some _ => pyImportStmtNames source cs
      | none => []
    else if kind = "import_from_statement" then
      match childByField "module_name" cs with
      | some m => [sliceBytes source m.startByte m.endByte]
      | none => []
    else [])
      ++ collectPyChildren source cs
/-- Child-list walk of collect_python_imports. -/
def collectPyChildren (source : Str) : TSChildList → List Str
  | .nil => []
  | .cons _ c rest => collect_python_imports source c ++ collectPyChildren source rest
end

/-- The string-argument loop of collect_ts_imports for a require call
(import_analysis.rs lines 103-110): every child of the arguments node whose
kind is string is sliced and has surrounding quotes stripped. -/
def tsStringArgs (source : Str) : TSChildList → List Str
  | .nil => []
  | .cons _ c rest =>
    (if c.kind = "string" then
      [trimQuotes (sliceBytes source c.startByte c.endByte)]
    else [])
      ++ tsStringArgs source rest

mutual
/-- Model of collect_ts_imports (import_analysis.rs lines 82-120): an
ordinary import statement node contributes its quote-stripped source
field, a call_expression whose function slice reads require contributes
its string arguments, and the walk recurses into all children. -/
def collect_ts_imports (source : Str) : TSNode → List Str
  | .mk kind _ _ _ _ cs =>
    (if kind = "import_statement" then
      match childByField "source" cs with
      | some srcNode =>
        [trimQuotes (sliceBytes source srcNode.startByte srcNode.endByte)]
      | none => []
    else if kind = "call_expression" then
      match childByField "function" cs with
      | some fnNode =>
        if sliceBytes source fnNode.startByte fnNode.endByte = "require".data then
          match childByField "arguments" cs with
          | some argsNode => tsStringArgs source argsNode.children
          | none => []
        else []
      | none => []
    else [])
      ++ collectTsChildren source cs
/-- Child-list walk of collect_ts_imports. -/
def collectTsChildren (source : Str) : TSChildList → List Str
  | .nil => []
  | .cons _ c rest => collect_ts_imports source c ++ collectTsChildren source rest
end

/-- File extensions for which get_imports selects a grammar
(import_analysis.rs lines 11-20). -/
def supportedImportExt (filePath : Str) : Bool :=
  strEndsWith filePath ".py".data || strEndsWith filePath ".ts".data
    || strEndsWith filePath ".tsx".data || strEndsWith filePath ".js".data
    || strEndsWith filePath ".jsx".data

/-- Model of get_imports (import_analysis.rs lines 5-43).  readResult models
fs::read_to_string (none is a read failure, which map_err plus the
question-mark operator propagates as a PyIOError); parseResult models
parser.parse (none is a parse failure, propagated as a PyRuntimeError).
An unsupported extension returns Ok(empty) before parsing. -/
def get_imports (filePath : Str) (readResult : Option Str)
    (parseResult : Option TSNode) : Except String (List Str) :=
  match readResult with
  | none => Except.error "Failed to read file"
  | some content =>
    if supportedImportExt filePath then
      match parseResult with
      | none => Except.error "Failed to parse code"
      | some tree =>
        if strEndsWith filePath ".py".data then
          Except.ok (collect_python_imports content tree)
        else
          Except.ok (collect_ts_imports content tree)
    else Except.ok []

/-!
lib.rs, walk_and_chunk and chunk_code.

The emitted PyDict values are modelled as key-value lists in insertion
order, with integer and string values.
-/

/-- Value stored in an emitted chunk dictionary. -/
inductive PyVal : Type where
  | int (n : Nat)
  | str (s : Str)
deriving DecidableEq

/-- An emitted chunk dictionary: keys with values, in insertion order. -/
abbrev ChunkDict := List (String × PyVal)

/-- First value stored under a key, if any. -/
def lookupKey (d : ChunkDict) (k : String) : Option PyVal :=
  match d.find? (fun p => p.1 == k) with
  | some p => some p.2
  | none => none

/-- The dictionary built in lib.rs lines 146-156: start_line, end_line,
content, node_type, then name when a name was extracted. -/
def mkChunkDict (startLine endLine : Nat) (body : Str) (nodeType : String)
    (nameOpt : Option Str) : ChunkDict :=
  [("start_line", PyVal.int startLine), ("end_line", PyVal.int endLine),
   ("content", PyVal.str body), ("node_type", PyVal.str nodeType.data)]
    ++ (match nameOpt with
        | some n => [("name", PyVal.str n)]
        | none => [])

/-- The start and end line of an emitted dictionary, when both are present. -/
def dictLines (d : ChunkDict) : Option (Nat × Nat) :=
  match lookupKey d "start_line", lookupKey d "end_line" with
  | some (PyVal.int a), some (PyVal.int b) => some (a, b)
  | _, _ => none

/-- The language and kind dispatch of lib.rs lines 102-129: whether the node
is chunkable and, if so, its node_type (the python function kind depends on
whether an enclosing class is present). -/
def classify (language : String) (parentClass : Option Str) (kind : String) :
    Bool × String :=
  if language = "python" || language = "py" then
    if kind = "function_definition" then
      (true, if parentClass.isSome then "method" else "func")
    else if kind = "class_definition" then (true, "class")
    else (false, "")
  else if language = "typescript" || language = "ts" || language = "tsx" then
    if kind = "function_declaration" then (true, "func")
    else if kind = "method_definition" then (true, "method")
    else if kind = "class_declaration" then (true, "class")
    else (false, "")
  else (false, "")

/-- Name extraction of lib.rs lines 132-139: the name field, else the key
field, sliced from the source. -/
def extractName (content : Str) (cs : TSChildList) : Option Str :=
  match childByField "name" cs with
  | some nameNode => some (sliceBytes content nameNode.startByte nameNode.endByte)
  | none =>
    match childByField "key" cs with
    | some keyNode => some (sliceBytes content keyNode.startByte keyNode.endByte)
    | none => none

mutual
/-- Model of walk_and_chunk (lib.rs lines 89-174): classify the node, emit a
dictionary when it is chunkable and its 1-based line span passes the
end_line - start_line >= 2 guard, update the enclosing-class context when
entering a named class, and recurse into all children. -/
def walk_and_chunk (language : String) (content : Str) (parentClass : Option Str) :
    TSNode → List ChunkDict
  | .mk kind sr er sb eb cs =>
    let cls := classify language parentClass kind
    let extracted := if cls.1 then extractName content cs else none
    let startLine := sr + 1
    let endLine := er + 1
    let self :=
      if cls.1 ∧ 2 ≤ endLine - startLine then
        [mkChunkDict startLine endLine (sliceBytes content sb eb) cls.2 extracted]
      else []
    let currentClass :=
      if cls.2 = "class" then
        match extracted with
        | some n => some n
        | none => parentClass
      else parentClass
    self ++ walkChildren language content currentClass cs
/-- Child-list walk of walk_and_chunk. -/
def walkChildren (language : String) (content : Str) (parentClass : Option Str) :
    TSChildList → List ChunkDict
  | .nil => []
  | .cons _ c rest =>
    walk_and_chunk language content parentClass c
      ++ walkChildren language content parentClass rest
end

/-- Language tags accepted by chunk_code (lib.rs lines 179-184). -/
def supportedChunkLang (language : String) : Bool :=
  language = "python" || language = "py" || language = "typescript"
    || language = "ts" || language = "tsx"

/-- Model of chunk_code (lib.rs lines 176-195): an unsupported language tag
returns the empty list, otherwise the tree produced by the parser is walked
with no enclosing class. -/
def chunk_code (language : String) (content : Str) (tree : TSNode) : List ChunkDict :=
  if supportedChunkLang language then walk_and_chunk language content none tree
  else []

/-- Whether a node kind is chunkable for a language, independently of any
enclosing class (the first component of classify does not depend on it). -/
def chunkKind (language kind : String) : Bool :=
  ((language = "python" || language = "py")
      && (kind = "function_definition" || kind = "class_definition"))
    || ((language = "typescript" || language = "ts" || language = "tsx")
      && (kind = "function_declaration" || kind = "method_definition"
          || kind = "class_declaration"))

mutual
/-- The 1-based line spans of the chunkable nodes that pass the
end_line - start_line >= 2 guard, in document pre-order. -/
def chunkableSpans (language : String) : TSNode → List (Nat × Nat)
  | .mk kind sr er _ _ cs =>
    (if chunkKind language kind ∧ 2 ≤ (er + 1) - (sr + 1) then [(sr + 1, er + 1)] else [])
      ++ chunkableSpansChildren language cs
/-- Child-list collection for chunkableSpans. -/
def chunkableSpansChildren (language : String) : TSChildList → List (Nat × Nat)
  | .nil => []
  | .cons _ c rest =>
    chunkableSpans language c ++ chunkableSpansChildren language rest
end

/-!
Concrete sources and their tree-sitter parse trees, used for end-to-end
checks and counterexamples.  Row and byte spans follow the actual grammars
(tree-sitter-python, tree-sitter-typescript) on these sources.
-/

/-- Source of the python declarative-import check. -/
def pyImportSrc : Str := "from pkg.sub import x".data

/-- Parse tree of pyImportSrc per the python grammar. -/
def pyImportTree : TSNode :=
  tsNode "module" 0 0 0 21
    [(none, tsNode "import_from_statement" 0 0 0 21
      [(none, tsNode "from" 0 0 0 4 []),
       (some "module_name", tsNode "dotted_name" 0 0 5 12
         [(none, tsNode "identifier" 0 0 5 8 []),
          (none, tsNode "." 0 0 8 9 []),
          (none, tsNode "identifier" 0 0 9 12 [])]),
       (none, tsNode "import" 0 0 13 19 []),
       (some "name", tsNode "dotted_name" 0 0 20 21
         [(none, tsNode "identifier" 0 0 20 21 [])])])]

/-- Source of the javascript require-call check. -/
def jsRequireSrc : Str := "require('./util')".data

/-- Parse tree of jsRequireSrc per the typescript grammar. -/
def jsRequireTree : TSNode :=
  tsNode "program" 0 0 0 17
    [(none, tsNode "expression_statement" 0 0 0 17
      [(none, tsNode "call_expression" 0 0 0 17
        [(some "function", tsNode "identifier" 0 0 0 7 []),
         (some "arguments", tsNode "arguments" 0 0 7 17
           [(none, tsNode "(" 0 0 7 8 []),
            (none, tsNode "string" 0 0 8 16
              [(none, tsNode "'" 0 0 8 9 []),
               (none, tsNode "string_fragment" 0 0 9 15 []),
               (none, tsNode "'" 0 0 15 16 [])]),
            (none, tsNode ")" 0 0 16 17 [])])])])]

/-- Source of a two-line python function definition. -/
def twoLineFnSrc : Str := "def f():\n    return 1".data

/-- The function_definition node of twoLineFnSrc: it spans rows 0 to 1,
that is source lines 1 to 2. -/
def twoLineFnNode : TSNode :=
  tsNode "function_definition" 0 1 0 21
    [(none, tsNode "def" 0 0 0 3 []),
     (some "name", tsNode "identifier" 0 0 4 5 []),
     (some "parameters", tsNode "parameters" 0 0 5 7 []),
     (none, tsNode ":" 0 0 7 8 []),
     (some "body", tsNode "block" 1 1 13 21
       [(none, tsNode "return_statement" 1 1 13 21 [])])]

/-- Parse tree of twoLineFnSrc. -/
def twoLineFnTree : TSNode :=
  tsNode "module" 0 1 0 21 [(none, twoLineFnNode)]

/-- Source with a three-line function followed by a one-line function. -/
def threeOneFnSrc : Str := "def f():\n    a = 1\n    return a\ndef g(): pass".data

/-- Parse tree of threeOneFnSrc: f spans rows 0 to 2, g spans row 3. -/
def threeOneFnTree : TSNode :=
  tsNode "module" 0 3 0 45
    [(none, tsNode "function_definition" 0 2 0 31
      [(none, tsNode "def" 0 0 0 3 []),
       (some "name", tsNode "identifier" 0 0 4 5 []),
       (some "parameters", tsNode "parameters" 0 0 5 7 []),
       (none, tsNode ":" 0 0 7 8 []),
       (some "body", tsNode "block" 1 2 13 31
         [(none, tsNode "expression_statement" 1 1 13 18 []),
          (none, tsNode "return_statement" 2 2 23 31 [])])]),
     (none, tsNode "function_definition" 3 3 32 45
      [(none, tsNode "def" 3 3 32 35 []),
       (some "name", tsNode "identifier" 3 3 36 37 []),
       (some "parameters", tsNode "parameters" 3 3 37 39 []),
       (none, tsNode ":" 3 3 39 40 []),
       (some "body", tsNode "block" 3 3 41 45
         [(none, tsNode "pass_statement" 3 3 41 45 [])])])]

/-- The single chunk emitted for threeOneFnTree. -/
def threeOneFnChunk : ChunkDict :=
  mkChunkDict 1 3 "def f():\n    a = 1\n    return a".data "func" (some "f".data)

/-- Source with a class containing one method. -/
def classMethodSrc : Str :=
  "class Foo:\n    def bar(self):\n        x = 1\n        return x".data

/-- Parse tree of classMethodSrc: class Foo spans rows 0 to 3, method bar
spans rows 1 to 3. -/
def classMethodTree : TSNode :=
  tsNode "module" 0 3 0 60
    [(none, tsNode "class_definition" 0 3 0 60
      [(none, tsNode "class" 0 0 0 5 []),
       (some "name", tsNode "identifier" 0 0 6 9 []),
       (none, tsNode ":" 0 0 9 10 []),
       (some "body", tsNode "block" 1 3 15 60
         [(none, tsNode "function_definition" 1 3 15 60
           [(none, tsNode "def" 1 1 15 18 []),
            (some "name", tsNode "identifier" 1 1 19 22 []),
            (some "parameters", tsNode "parameters" 1 1 22 28 []),
            (none, tsNode ":" 1 1 28 29 []),
            (some "body", tsNode "block" 2 3 38 60
              [(none, tsNode "expression_statement" 2 2 38 43 []),
               (none, tsNode "return_statement" 3 3 52 60 [])])])])])]

/-- The chunk emitted for the class of classMethodTree. -/
def classChunk : ChunkDict :=
  mkChunkDict 1 4 classMethodSrc "class" (some "Foo".data)

/-- The chunk emitted for the method of classMethodTree. -/
def methodChunk : ChunkDict :=
  mkChunkDict 2 4 "def bar(self):\n        x = 1\n        return x".data "method"
    (some "bar".data)

/-!
Generic lemmas about the stable descending insertion sort.
-/

theorem insertDescBy_perm {α β : Type} [LinearOrder β] (key : α → β) (p : α) :
    ∀ l : List α, (insertDescBy key p l).Perm (p :: l)
  | [] => List.Perm.refl _
  | q :: rest => by
    unfold insertDescBy
    split
    · exact ((insertDescBy_perm key p rest).cons q).trans (List.Perm.swap p q rest)
    · exact List.Perm.refl _

theorem sortDescBy_perm {α β : Type} [LinearOrder β] (key : α → β) :
    ∀ l : List α, (sortDescBy key l).Perm l
  | [] => List.Perm.refl _
  | p :: rest => (insertDescBy_perm key p _).trans ((sortDescBy_perm key rest).cons p)

theorem insertDescBy_pairwise {α β : Type} [LinearOrder β] (key : α → β) (p : α) :
    ∀ l : List α, l.Pairwise (fun a b => key b ≤ key a) →
      (insertDescBy key p l).Pairwise (fun a b => key b ≤ key a)
  | [], _ => List.pairwise_singleton _ p
  | q :: rest, h => by
    rw [List.pairwise_cons] at h
    obtain ⟨hq, hrest⟩ := h
    unfold insertDescBy
    split
    case isTrue hlt =>
      rw [List.pairwise_cons]
      refine ⟨fun x hx => ?_, insertDescBy_pairwise key p rest hrest⟩
      rcases List.mem_cons.1 ((insertDescBy_perm key p rest).mem_iff.1 hx) with h1 | h1
      · exact h1 ▸ le_of_lt hlt
      · exact hq x h1
    case isFalse hge =>
      rw [List.pairwise_cons]
      refine ⟨fun x hx => ?_, List.pairwise_cons.2 ⟨hq, hrest⟩⟩
      rcases List.mem_cons.1 hx with h1 | h1
      · exact h1 ▸ not_lt.1 hge
      · exact le_trans (hq x h1) (not_lt.1 hge)

theorem sortDescBy_pairwise {α β : Type} [LinearOrder β] (key : α → β) :
    ∀ l : List α, (sortDescBy key l).Pairwise (fun a b => key b ≤ key a)
  | [] => List.Pairwise.nil
  | p :: rest => insertDescBy_pairwise key p _ (sortDescBy_pairwise key rest)

/-!
Claim C1 (corrected) and supporting facts.
-/

/-- C1 counterexample: when spawning git fails (missing binary), modelled by
a none process outcome, get_related_files propagates a PyIOError instead of
returning the empty list, refuting the claim that every retrieval failure
surfaces as an empty list. -/
theorem related_files_missing_binary_cex :
    get_related_files (fun l => l) "a.py".data 10 none none
      = Except.error "Failed to run git" ∧
    Except.error "Failed to run git" ≠ Except.ok ([] : List Str) := by
  exact ⟨rfl, fun h => Except.noConfusion h⟩

/-- C1 (amended): a probe run that exits non-zero makes get_related_files
return Ok with the empty list, but a spawn failure of either git invocation
(git binary missing) is propagated as an error rather than swallowed. -/
theorem related_files_failure_semantics :
    ∀ (shuffle : List (Str × Nat) → List (Str × Nat)) (target : Str) (limit : Nat)
      (o1 : ProcOutput) (scan : Option ProcOutput),
      (o1.success = false →
        get_related_files shuffle target limit (some o1) scan = Except.ok []) ∧
      get_related_files shuffle target limit none scan
        = Except.error "Failed to run git" ∧
      (o1.success = true →
        get_related_files shuffle target limit (some o1) none
          = Except.error "Failed to run git") := by
  intro shuffle target limit o1 scan
  obtain ⟨s, out⟩ := o1
  refine ⟨fun h => ?_, rfl, fun h => ?_⟩
  · cases s
    · rfl
    · exact Bool.noConfusion h
  · cases s
    · exact Bool.noConfusion h
    · rfl

/-- Witness for C1: concrete non-zero-exit probe yields the empty list. -/
theorem related_files_failure_semantics_witness :
    (⟨false, []⟩ : ProcOutput).success = false ∧
    get_related_files (fun l => l) "a.py".data 10 (some ⟨false, []⟩) none
      = Except.ok [] :=
  ⟨rfl, (related_files_failure_semantics (fun l => l) "a.py".data 10 ⟨false, []⟩ none).1 rfl⟩

/-!
Claims C6 (corrected) and C7 (confirmed): properties of the co-occurrence
result.
-/

theorem bump_forall {Q : Str → Prop} (f : Str) (hf : Q f) :
    ∀ m : List (Str × Nat), (∀ p ∈ m, Q p.1) → ∀ p ∈ bump m f, Q p.1 := by
  intro m
  induction m with
  | nil =>
    intro _ p hp
    unfold bump at hp
    rw [List.mem_singleton] at hp
    subst hp
    exact hf
  | cons q rest ih =>
    intro hm p hp
    obtain ⟨g, n⟩ := q
    unfold bump at hp
    by_cases hg : g = f
    · rw [if_pos hg] at hp
      rcases List.mem_cons.1 hp with rfl | h1
      · exact hg ▸ hf
      · exact hm _ (List.mem_cons_of_mem _ h1)
    · rw [if_neg hg] at hp
      rcases List.mem_cons.1 hp with rfl | h1
      · exact hm _ (List.mem_cons_self _ _)
      · exact ih (fun p hp => hm p (List.mem_cons_of_mem _ hp)) p h1

theorem commitFold_forall (target : Str) :
    ∀ (files : List Str) (acc : List (Str × Nat)),
      (∀ p ∈ acc, p.1 ≠ target ∧ strEndsWith p.1 target = false) →
      ∀ p ∈ files.foldl
          (fun acc2 file =>
            if file ≠ target ∧ strEndsWith file target = false then bump acc2 file
            else acc2)
          acc,
        p.1 ≠ target ∧ strEndsWith p.1 target = false := by
  intro files
  induction files with
  | nil => intro acc hacc p hp; exact hacc p hp
  | cons file rest ih =>
    intro acc hacc p hp
    rw [List.foldl_cons] at hp
    by_cases hc : file ≠ target ∧ strEndsWith file target = false
    · rw [if_pos hc] at hp
      exact ih _ (bump_forall (Q := fun x => x ≠ target ∧ strEndsWith x target = false)
        file hc acc hacc) p hp
    · rw [if_neg hc] at hp
      exact ih _ hacc p hp

theorem blocksFold_forall (target : Str) :
    ∀ (blocks : List (List Str)) (acc : List (Str × Nat)),
      (∀ p ∈ acc, p.1 ≠ target ∧ strEndsWith p.1 target = false) →
      ∀ p ∈ blocks.foldl
          (fun acc files =>
            if files.any (matchesTarget target) then
              files.foldl
                (fun acc2 file =>
                  if file ≠ target ∧ strEndsWith file target = false then bump acc2 file
                  else acc2)
                acc
            else acc)
          acc,
        p.1 ≠ target ∧ strEndsWith p.1 target = false := by
  intro blocks
  induction blocks with
  | nil => intro acc hacc p hp; exact hacc p hp
  | cons b rest ih =>
    intro acc hacc p hp
    rw [List.foldl_cons] at hp
    by_cases hb : b.any (matchesTarget target) = true
    · rw [if_pos hb] at hp
      exact ih _ (commitFold_forall target b acc hacc) p hp
    · rw [if_neg hb] at hp
      exact ih _ hacc p hp

theorem coOccurrence_forall (target stdoutSep : Str) :
    ∀ p ∈ coOccurrence target stdoutSep,
      p.1 ≠ target ∧ strEndsWith p.1 target = false := by
  unfold coOccurrence
  exact blocksFold_forall target (parseCommitBlocks stdoutSep) []
    (fun p hp => absurd hp (List.not_mem_nil p))

/-- C7: every path in an Ok result of get_related_files is neither equal to
the target file nor a suffix match of it, for any map iteration order that
permutes the co-occurrence entries. -/
theorem related_files_excludes_target :
    ∀ (shuffle : List (Str × Nat) → List (Str × Nat)) (target : Str) (limit : Nat)
      (probe scan : Option ProcOutput) (res : List Str),
      (∀ l, (shuffle l).Perm l) →
      get_related_files shuffle target limit probe scan = Except.ok res →
      ∀ f ∈ res, f ≠ target ∧ strEndsWith f target = false := by
  intro shuffle target limit probe scan res hsh heq f hf
  cases probe with
  | none => exact Except.noConfusion heq
  | some o1 =>
    simp only [get_related_files] at heq
    by_cases hs : o1.success = true
    · rw [if_pos hs] at heq
      cases scan with
      | none => exact Except.noConfusion heq
      | some o2 =>
        injection heq with heq
        subst heq
        obtain ⟨p, hp, rfl⟩ := List.mem_map.1 hf
        have hp2 : p ∈ sortDescBy (fun p => p.2) (shuffle (coOccurrence target o2.stdout)) :=
          List.take_subset _ _ hp
        have hp3 : p ∈ shuffle (coOccurrence target o2.stdout) :=
          (sortDescBy_perm _ _).mem_iff.1 hp2
        have hp4 : p ∈ coOccurrence target o2.stdout :=
          (hsh _).mem_iff.1 hp3
        exact coOccurrence_forall target o2.stdout p hp4
    · rw [if_neg hs] at heq
      injection heq with heq
      subst heq
      exact absurd hf (List.not_mem_nil f)

/-- Witness for C7 at a concrete one-commit history. -/
theorem related_files_excludes_target_witness :
    (∀ l : List (Str × Nat), ((fun l => l) l).Perm l) ∧
    "a".data ≠ "t".data ∧ strEndsWith "a".data "t".data = false :=
  ⟨fun l => List.Perm.refl l,
    related_files_excludes_target (fun l => l) "t".data 10 (some ⟨true, []⟩)
      (some ⟨true, "COMMIT_START\nt\na\nb".data⟩) ["a".data, "b".data]
      (fun l => List.Perm.refl l) rfl "a".data (by decide)⟩

/-- C6 counterexample: at a one-commit history touching t, a and b, the
files a and b tie with count 1 and are first seen in the order a then b,
but with the reversed map iteration order (a legitimate permutation of the
co-occurrence entries, whose order the Rust HashMap does not specify) the
result lists b before a, refuting the claimed first-seen tie-break. -/
theorem related_files_tie_order_cex :
    (List.reverse [("a".data, 1), ("b".data, 1)]).Perm [("a".data, (1 : Nat)), ("b".data, 1)] ∧
    coOccurrence "t".data "COMMIT_START\nt\na\nb".data
      = [("a".data, 1), ("b".data, 1)] ∧
    get_related_files List.reverse "t".data 10 (some ⟨true, []⟩)
      (some ⟨true, "COMMIT_START\nt\na\nb".data⟩)
      = Except.ok ["b".data, "a".data] ∧
    ["b".data, "a".data] ≠ ["a".data, "b".data] := by
  exact ⟨by decide, by rfl, by rfl, by decide⟩

/-- C6 (amended): any Ok result of get_related_files has at most limit
entries and is the path projection of a count-descending entry list; the
relative order of equal counts follows the unspecified map iteration
order, not necessarily first-seen insertion order. -/
theorem related_files_sorted_bounded :
    ∀ (shuffle : List (Str × Nat) → List (Str × Nat)) (target : Str) (limit : Nat)
      (probe scan : Option ProcOutput) (res : List Str),
      get_related_files shuffle target limit probe scan = Except.ok res →
      res.length ≤ limit ∧
      ∃ entries : List (Str × Nat), res = entries.map Prod.fst ∧
        entries.Pairwise (fun a b => b.2 ≤ a.2) := by
  intro shuffle target limit probe scan res heq
  cases probe with
  | none => exact Except.noConfusion heq
  | some o1 =>
    simp only [get_related_files] at heq
    by_cases hs : o1.success = true
    · rw [if_pos hs] at heq
      cases scan with
      | none => exact Except.noConfusion heq
      | some o2 =>
        injection heq with heq
        subst heq
        constructor
        · rw [relatedFromEntries, List.length_map]
          exact (List.length_take_le _ _)
        · refine ⟨relatedEntries (shuffle (coOccurrence target o2.stdout)) limit, rfl, ?_⟩
          exact List.Pairwise.sublist (List.take_sublist _ _) (sortDescBy_pairwise _ _)
    · rw [if_neg hs] at heq
      injection heq with heq
      subst heq
      exact ⟨Nat.zero_le _, [], rfl, List.Pairwise.nil⟩

/-- Witness for C6 at a concrete one-commit history. -/
theorem related_files_sorted_bounded_witness :
    get_related_files (fun l => l) "t".data 10 (some ⟨true, []⟩)
      (some ⟨true, "COMMIT_START\nt\na\nb".data⟩)
      = Except.ok ["a".data, "b".data] ∧
    (["a".data, "b".data] : List Str).length ≤ 10 ∧
    (∃ entries : List (Str × Nat), ["a".data, "b".data] = entries.map Prod.fst ∧
      entries.Pairwise (fun a b => b.2 ≤ a.2)) :=
  ⟨rfl,
    related_files_sorted_bounded (fun l => l) "t".data 10 (some ⟨true, []⟩)
      (some ⟨true, "COMMIT_START\nt\na\nb".data⟩) ["a".data, "b".data] rfl⟩

/-!
Claim C2 (confirmed): the score of every returned candidate follows the
documented formula, with the rank weight determined by the position in the
miner list.
-/

theorem lookupCount_cons (k0 : Str) (v0 : Nat) (rest : List (Str × Nat)) (c : Str) :
    lookupCount ((k0, v0) :: rest) c = if k0 = c then v0 else lookupCount rest c := by
  by_cases h : k0 = c
  · simp [lookupCount, List.find?_cons, h]
  · simp [lookupCount, List.find?_cons, h]

theorem lookupCount_insertOv :
    ∀ (m : List (Str × Nat)) (k : Str) (v : Nat) (c : Str),
      lookupCount (insertOv m k v) c = if k = c then v else lookupCount m c
  | [], k, v, c => by
    by_cases h : k = c <;> simp [insertOv, lookupCount, List.find?_cons, h]
  | (k0, v0) :: rest, k, v, c => by
    unfold insertOv
    by_cases h0 : k0 = k
    · rw [if_pos h0, lookupCount_cons, lookupCount_cons]
      subst h0
      by_cases h : k0 = c
      · simp [h]
      · simp [h]
    · rw [if_neg h0, lookupCount_cons, lookupCount_cons,
        lookupCount_insertOv rest k v c]
      by_cases h1 : k0 = c
      · have hk : k ≠ c := fun h => h0 (h1.trans h.symm)
        simp [h1, hk]
      · simp [h1]

theorem lookup_foldIns_notmem (n : Nat) :
    ∀ (l : List Str) (k : Nat) (m0 : List (Str × Nat)) (c : Str), c ∉ l →
      lookupCount ((List.enumFrom k l).foldl (fun m p => insertOv m p.2 (n - p.1)) m0) c
        = lookupCount m0 c
  | [], _, _, _, _ => rfl
  | a :: rest, k, m0, c, hc => by
    rw [List.enumFrom_cons, List.foldl_cons,
      lookup_foldIns_notmem n rest (k + 1) _ c (fun h => hc (List.mem_cons_of_mem a h)),
      lookupCount_insertOv]
    exact if_neg (fun h => hc (List.mem_cons.2 (Or.inl h.symm)))

theorem lookup_foldIns (n : Nat) :
    ∀ (l : List Str) (k : Nat) (m0 : List (Str × Nat)) (c : Str), l.Nodup →
      lookupCount ((List.enumFrom k l).foldl (fun m p => insertOv m p.2 (n - p.1)) m0) c
        = if c ∈ l then n - (k + l.indexOf c) else lookupCount m0 c
  | [], _, _, c, _ => by simp
  | a :: rest, k, m0, c, hnd => by
    rw [List.enumFrom_cons, List.foldl_cons]
    rw [List.nodup_cons] at hnd
    obtain ⟨ha, hnd2⟩ := hnd
    by_cases hc : c = a
    · subst hc
      rw [lookup_foldIns_notmem n rest (k + 1) _ c ha, lookupCount_insertOv, if_pos rfl,
        if_pos (List.mem_cons_self c rest)]
      simp [List.indexOf_cons]
    · rw [lookup_foldIns n rest (k + 1) _ c hnd2]
      by_cases hm : c ∈ rest
      · rw [if_pos hm, if_pos (List.mem_cons_of_mem a hm)]
        have hne : (a == c) = false := beq_false_of_ne (fun h => hc h.symm)
        simp only [List.indexOf_cons, hne, cond_false]
        omega
      · rw [if_neg hm,
          if_neg (fun h => (List.mem_cons.1 h).elim hc hm),
          lookupCount_insertOv]
        exact if_neg (fun h => hc h.symm)

theorem lookup_buildGitMap (gitFiles : List Str) (hnd : gitFiles.Nodup) (c : Str) :
    lookupCount (buildGitMap gitFiles) c = specRankWeight gitFiles c := by
  unfold buildGitMap specRankWeight
  have he : gitFiles.enum = List.enumFrom 0 gitFiles := rfl
  rw [he, lookup_foldIns gitFiles.length gitFiles 0 [] c hnd]
  by_cases h : c ∈ gitFiles
  · rw [if_pos h, if_pos h, Nat.zero_add]
  · rw [if_neg h, if_neg h]
    rfl

theorem hybridScore_eq_spec (gitFiles staticImports : List Str) (c : Str)
    (hnd : gitFiles.Nodup) :
    hybridScore gitFiles staticImports c = specScore gitFiles staticImports c := by
  unfold hybridScore specScore
  rw [lookup_buildGitMap gitFiles hnd c]
  rcases Nat.eq_zero_or_pos (specRankWeight gitFiles c) with h | h
  · simp [h]
  · simp [h, Nat.pos_iff_ne_zero.1 h]

/-- C2: every candidate of the hybrid result carries the documented score:
0.7 when a translated import fragment is a substring of the path, plus
0.5 * (rankWeight / totalMinerCandidates) for a nonzero rank weight where
rankWeight is the miner count minus the 0-based rank, plus a 0.2 synergy
bonus when both fire.  The miner list is duplicate-free, being the key set
of the co-occurrence map. -/
theorem hybrid_score_formula :
    ∀ (gitFiles staticImports candOrder : List Str) (limit : Nat) (threshold : ℚ),
      gitFiles.Nodup →
      ∀ c s r, (c, s, r) ∈ get_hybrid_context gitFiles staticImports candOrder limit threshold →
        s = specScore gitFiles staticImports c := by
  intro g i order limit t hnd c s r hmem
  unfold get_hybrid_context at hmem
  have h1 : (c, s, r) ∈ sortDescBy (fun x => x.2.1) (scoredCandidates g i order t) :=
    List.take_subset _ _ hmem
  have h2 : (c, s, r) ∈ scoredCandidates g i order t := (sortDescBy_perm _ _).mem_iff.1 h1
  unfold scoredCandidates at h2
  obtain ⟨a, _, heq⟩ := List.mem_filterMap.1 h2
  by_cases hc : t ≤ hybridScore g i a
  · rw [if_pos hc] at heq
    injection heq with heq
    cases heq
    exact hybridScore_eq_spec g i _ hnd
  · rw [if_neg hc] at heq
    exact Option.noConfusion heq

/-- Witness for C2 at a one-file miner output, with the threshold chosen as
the candidate score itself so that the candidate passes the filter. -/
theorem hybrid_score_formula_witness :
    (["a".data] : List Str).Nodup ∧
    hybridScore ["a".data] [] "a".data = specScore ["a".data] [] "a".data :=
  ⟨by decide,
    hybrid_score_formula ["a".data] [] ["a".data] 10 (hybridScore ["a".data] [] "a".data)
      (by decide) "a".data (hybridScore ["a".data] [] "a".data)
      (hybridReasons ["a".data] [] "a".data)
      (by simp [get_hybrid_context, scoredCandidates, sortDescBy, insertDescBy])⟩

/-!
Claim C5 (confirmed): results never score below the threshold, and raising
the threshold shrinks the result set.  The key facts are that filtering by
a score lower bound commutes with the stable sort, and that a filtered
prefix of a sorted list stays within the corresponding prefix.
-/

theorem insertDescBy_cons {α β : Type} [LinearOrder β] (key : α → β) (x q : α) (m : List α) :
    insertDescBy key x (q :: m)
      = if key x < key q then q :: insertDescBy key x m else x :: q :: m := rfl

theorem sortDescBy_cons {α β : Type} [LinearOrder β] (key : α → β) (x : α) (l : List α) :
    sortDescBy key (x :: l) = insertDescBy key x (sortDescBy key l) := rfl

theorem filter_cons_pos {α β : Type} [LinearOrder β] (key : α → β) (c : β) (x : α)
    (l : List α) (hx : c ≤ key x) :
    (x :: l).filter (fun y => decide (c ≤ key y))
      = x :: l.filter (fun y => decide (c ≤ key y)) := by
  simp [List.filter_cons, hx]

theorem filter_cons_neg {α β : Type} [LinearOrder β] (key : α → β) (c : β) (x : α)
    (l : List α) (hx : ¬ c ≤ key x) :
    (x :: l).filter (fun y => decide (c ≤ key y))
      = l.filter (fun y => decide (c ≤ key y)) := by
  simp [List.filter_cons, hx]

theorem scoredCandidates_filter (g i order : List Str) (t1 t2 : ℚ) (h12 : t1 ≤ t2) :
    scoredCandidates g i order t2
      = (scoredCandidates g i order t1).filter (fun x => decide (t2 ≤ x.2.1)) := by
  induction order with
  | nil => rfl
  | cons c rest ih =>
    unfold scoredCandidates at ih ⊢
    rw [List.filterMap_cons, List.filterMap_cons]
    by_cases h2 : t2 ≤ hybridScore g i c
    · rw [if_pos h2, if_pos (le_trans h12 h2), ih,
        filter_cons_pos (fun x : Str × ℚ × Str => x.2.1) t2 _ _ h2]
    · by_cases h1 : t1 ≤ hybridScore g i c
      · rw [if_neg h2, if_pos h1, ih,
          filter_cons_neg (fun x : Str × ℚ × Str => x.2.1) t2 _ _ h2]
      · rw [if_neg h2, if_neg h1, ih]

theorem insertDescBy_eq_cons {α β : Type} [LinearOrder β] (key : α → β) (x : α) :
    ∀ m : List α, (∀ y ∈ m, key y ≤ key x) → insertDescBy key x m = x :: m
  | [], _ => rfl
  | y :: m, h => by
    rw [insertDescBy_cons]
    exact if_neg (not_lt.2 (h y (List.mem_cons_self y m)))

theorem filter_insertDescBy_neg {α β : Type} [LinearOrder β] (key : α → β) (c : β) (x : α)
    (hx : ¬ c ≤ key x) :
    ∀ m : List α,
      (insertDescBy key x m).filter (fun y => decide (c ≤ key y))
        = m.filter (fun y => decide (c ≤ key y))
  | [] => by
    show (insertDescBy key x []).filter _ = _
    rw [show insertDescBy key x [] = [x] from rfl, filter_cons_neg key c x [] hx]
  | q :: m => by
    rw [insertDescBy_cons]
    by_cases hlt : key x < key q
    · rw [if_pos hlt]
      by_cases hq : c ≤ key q
      · rw [filter_cons_pos key c q _ hq, filter_cons_pos key c q _ hq,
          filter_insertDescBy_neg key c x hx m]
      · rw [filter_cons_neg key c q _ hq, filter_cons_neg key c q _ hq,
          filter_insertDescBy_neg key c x hx m]
    · rw [if_neg hlt, filter_cons_neg key c x _ hx]

theorem filter_insertDescBy_pos {α β : Type} [LinearOrder β] (key : α → β) (c : β) (x : α)
    (hx : c ≤ key x) :
    ∀ m : List α, m.Pairwise (fun a b => key b ≤ key a) →
      (insertDescBy key x m).filter (fun y => decide (c ≤ key y))
        = insertDescBy key x (m.filter (fun y => decide (c ≤ key y)))
  | [], _ => by
    rw [show insertDescBy key x [] = [x] from rfl, filter_cons_pos key c x [] hx]
    rfl
  | q :: m, hp => by
    rw [List.pairwise_cons] at hp
    obtain ⟨hq, hm⟩ := hp
    rw [insertDescBy_cons]
    by_cases hlt : key x < key q
    · rw [if_pos hlt]
      have hpq : c ≤ key q := le_trans hx (le_of_lt hlt)
      rw [filter_cons_pos key c q _ hpq, filter_cons_pos key c q _ hpq,
        filter_insertDescBy_pos key c x hx m hm, insertDescBy_cons, if_pos hlt]
    · rw [if_neg hlt]
      have hqx : key q ≤ key x := not_lt.1 hlt
      rw [filter_cons_pos key c x _ hx,
        insertDescBy_eq_cons key x ((q :: m).filter (fun y => decide (c ≤ key y)))]
      intro y hy
      rcases List.mem_cons.1 (List.mem_of_mem_filter hy) with rfl | h1
      · exact hqx
      · exact le_trans (hq y h1) hqx

theorem filter_sortDescBy {α β : Type} [LinearOrder β] (key : α → β) (c : β) :
    ∀ l : List α,
      sortDescBy key (l.filter (fun y => decide (c ≤ key y)))
        = (sortDescBy key l).filter (fun y => decide (c ≤ key y))
  | [] => rfl
  | x :: l => by
    rw [sortDescBy_cons]
    by_cases hx : c ≤ key x
    · rw [filter_cons_pos key c x _ hx, sortDescBy_cons, filter_sortDescBy key c l,
        filter_insertDescBy_pos key c x hx _ (sortDescBy_pairwise key l)]
    · rw [filter_cons_neg key c x _ hx, filter_sortDescBy key c l,
        filter_insertDescBy_neg key c x hx]

theorem mem_take_filter {α β : Type} [LinearOrder β] (key : α → β) (c : β) (x : α) :
    ∀ (m : List α) (n : Nat), m.Pairwise (fun a b => key b ≤ key a) →
      x ∈ (m.filter (fun y => decide (c ≤ key y))).take n → x ∈ m.take n
  | [], n, _, hx => by simp at hx
  | q :: m, 0, _, hx => by simp at hx
  | q :: m, n + 1, hp, hx => by
    rw [List.pairwise_cons] at hp
    obtain ⟨hq, hm⟩ := hp
    by_cases hpq : c ≤ key q
    · rw [filter_cons_pos key c q _ hpq, List.take_succ_cons] at hx
      rw [List.take_succ_cons]
      rcases List.mem_cons.1 hx with rfl | h1
      · exact List.mem_cons_self _ _
      · exact List.mem_cons_of_mem _ (mem_take_filter key c x m n hm h1)
    · rw [filter_cons_neg key c q _ hpq] at hx
      have hnil : m.filter (fun y => decide (c ≤ key y)) = [] :=
        List.filter_eq_nil_iff.2 (fun y hy => by
          simp only [decide_eq_true_eq]
          exact fun hcy => hpq (le_trans hcy (hq y hy)))
      rw [hnil] at hx
      simp at hx

/-- C5: the hybrid result never contains a candidate scoring below the
threshold, and for fixed inputs the result at a higher threshold is a
subset of the result at a lower threshold. -/
theorem hybrid_threshold_monotone :
    ∀ (gitFiles staticImports candOrder : List Str) (limit : Nat) (t1 t2 : ℚ),
      (∀ x ∈ get_hybrid_context gitFiles staticImports candOrder limit t2, t2 ≤ x.2.1) ∧
      (t1 ≤ t2 →
        ∀ x ∈ get_hybrid_context gitFiles staticImports candOrder limit t2,
          x ∈ get_hybrid_context gitFiles staticImports candOrder limit t1) := by
  intro g i order limit t1 t2
  constructor
  · intro x hx
    have h1 : x ∈ scoredCandidates g i order t2 :=
      (sortDescBy_perm _ _).mem_iff.1 (List.take_subset _ _ hx)
    unfold scoredCandidates at h1
    obtain ⟨a, _, heq⟩ := List.mem_filterMap.1 h1
    by_cases hc : t2 ≤ hybridScore g i a
    · rw [if_pos hc] at heq
      injection heq with heq
      cases heq
      exact hc
    · rw [if_neg hc] at heq
      exact Option.noConfusion heq
  · intro h12 x hx
    unfold get_hybrid_context at hx ⊢
    rw [scoredCandidates_filter g i order t1 t2 h12,
      filter_sortDescBy (fun y : Str × ℚ × Str => y.2.1) t2] at hx
    exact mem_take_filter (fun y : Str × ℚ × Str => y.2.1) t2 x _ limit
      (sortDescBy_pairwise _ _) hx

/-- Witness for C5 with both thresholds equal to the candidate score. -/
theorem hybrid_threshold_monotone_witness :
    hybridScore ["a".data] [] "a".data ≤ hybridScore ["a".data] [] "a".data ∧
    ("a".data, hybridScore ["a".data] [] "a".data, hybridReasons ["a".data] [] "a".data)
      ∈ get_hybrid_context ["a".data] [] ["a".data] 10 (hybridScore ["a".data] [] "a".data) :=
  ⟨le_refl _,
    (hybrid_threshold_monotone ["a".data] [] ["a".data] 10
        (hybridScore ["a".data] [] "a".data) (hybridScore ["a".data] [] "a".data)).2
      (le_refl _) _
      (by simp [get_hybrid_context, scoredCandidates, sortDescBy, insertDescBy])⟩

/-!
Claim C10 (confirmed): every scored candidate has rank weight at least 1,
the normalisation never divides by a zero miner count, and an empty miner
output gives an empty hybrid result.
-/

theorem indexOf_lt_length_of_mem {c : Str} :
    ∀ {l : List Str}, c ∈ l → List.indexOf c l < l.length := by
  intro l
  induction l with
  | nil => intro h; cases h
  | cons a rest ih =>
    intro h
    rw [List.indexOf_cons]
    by_cases ha : (a == c) = true
    · simp [ha]
    · have ha2 : (a == c) = false := by simpa using ha
      simp only [ha2, cond_false, List.length_cons]
      have hc : c ∈ rest := by
        rcases List.mem_cons.1 h with rfl | h1
        · exact Bool.noConfusion ((beq_self_eq_true c).symm.trans ha2)
        · exact h1
      exact Nat.succ_lt_succ (ih hc)

/-- C10: with the candidate universe a permutation of the distinct miner
files, every candidate has rank weight at least 1; a positive rank weight
forces a positive miner count (so the 0.5 * rank / total normalisation
never divides by zero); and an empty miner output yields an empty hybrid
result. -/
theorem hybrid_rank_safety :
    ∀ (gitFiles staticImports candOrder : List Str) (limit : Nat) (threshold : ℚ),
      gitFiles.Nodup → candOrder.Perm gitFiles.dedup →
      (∀ c ∈ candOrder, 1 ≤ lookupCount (buildGitMap gitFiles) c) ∧
      (∀ c : Str, 0 < lookupCount (buildGitMap gitFiles) c → 0 < gitFiles.length) ∧
      (gitFiles = [] →
        get_hybrid_context gitFiles staticImports candOrder limit threshold = []) := by
  intro g i order limit t hnd hperm
  refine ⟨?_, ?_, ?_⟩
  · intro c hc
    have hg : c ∈ g := List.mem_dedup.1 (hperm.mem_iff.1 hc)
    rw [lookup_buildGitMap g hnd c]
    unfold specRankWeight
    rw [if_pos hg]
    have := indexOf_lt_length_of_mem hg
    omega
  · intro c hpos
    cases g with
    | nil =>
      rw [show buildGitMap [] = [] from rfl] at hpos
      simp [lookupCount] at hpos
    | cons a rest => simp
  · intro hg
    subst hg
    have horder : order = [] := hperm.eq_nil
    subst horder
    simp [get_hybrid_context, scoredCandidates, sortDescBy]

/-- Witness for C10 at a one-file miner output. -/
theorem hybrid_rank_safety_witness :
    (["a".data] : List Str).Nodup ∧
    (["a".data] : List Str).Perm (["a".data] : List Str).dedup ∧
    1 ≤ lookupCount (buildGitMap ["a".data]) "a".data :=
  ⟨by decide, by decide,
    (hybrid_rank_safety ["a".data] [] ["a".data] 10 0 (by decide) (by decide)).1
      "a".data (by decide)⟩

/-!
Claims C8 (confirmed) and C9 (corrected): the import extractor end-to-end
behaviour and its failure semantics.
-/

/-- C8: on the python source with a from-import, get_imports returns
exactly the dotted module path, and on the javascript source with a
require call it returns exactly the quote-stripped argument. -/
theorem imports_end_to_end :
    get_imports "a.py".data (some pyImportSrc) (some pyImportTree)
      = Except.ok ["pkg.sub".data] ∧
    get_imports "util_user.js".data (some jsRequireSrc) (some jsRequireTree)
      = Except.ok ["./util".data] := by
  exact ⟨rfl, rfl⟩

/-- C9 counterexample: a failing file read (nonexistent or unreadable
path), modelled by a none read outcome, makes get_imports propagate a
PyIOError instead of returning the empty list. -/
theorem imports_read_failure_cex :
    get_imports "missing.py".data none none = Except.error "Failed to read file" ∧
    Except.error "Failed to read file" ≠ Except.ok ([] : List Str) := by
  exact ⟨rfl, fun h => Except.noConfusion h⟩

/-- C9 (amended): an unreadable or nonexistent file makes get_imports raise
a PyIOError (its caller in the hybrid scorer swallows it separately via
unwrap_or_default); only an unsupported file extension degrades to the
empty list. -/
theorem imports_failure_semantics :
    ∀ (filePath : Str) (parseResult : Option TSNode) (content : Str),
      get_imports filePath none parseResult = Except.error "Failed to read file" ∧
      (supportedImportExt filePath = false →
        get_imports filePath (some content) parseResult = Except.ok []) := by
  intro filePath parseResult content
  refine ⟨rfl, fun h => ?_⟩
  simp only [get_imports, h]
  rfl

/-- Witness for C9 at an unsupported extension. -/
theorem imports_failure_semantics_witness :
    get_imports "a.txt".data none none = Except.error "Failed to read file" ∧
    (supportedImportExt "a.txt".data = false →
      get_imports "a.txt".data (some "x".data) none = Except.ok []) :=
  imports_failure_semantics "a.txt".data none "x".data

/-!
Claims C3 (corrected) and C4 (corrected): the chunker line-span guard and
the shape of the emitted records.
-/

theorem classify_fst (language : String) (pc : Option Str) (kind : String) :
    (classify language pc kind).1 = chunkKind language kind := by
  unfold classify chunkKind
  by_cases c1 : language = "python" <;>
    by_cases c2 : language = "py" <;>
      by_cases c3 : language = "typescript" <;>
        by_cases c4 : language = "ts" <;>
          by_cases c5 : language = "tsx" <;>
            simp_all <;> split_ifs <;> simp_all

theorem dictLines_mkChunkDict (a b : Nat) (body : Str) (t : String) (nameOpt : Option Str) :
    dictLines (mkChunkDict a b body t nameOpt) = some (a, b) := by
  cases nameOpt <;> rfl

mutual
theorem walk_lines (language : String) (content : Str) :
    ∀ (pc : Option Str) (t : TSNode),
      (walk_and_chunk language content pc t).map dictLines
        = (chunkableSpans language t).map some
  | pc, .mk kind sr er sb eb cs => by
    simp only [walk_and_chunk, chunkableSpans, List.map_append]
    rw [classify_fst]
    rw [walkChildren_lines language content _ cs]
    by_cases hcond : chunkKind language kind = true ∧ 2 ≤ er + 1 - (sr + 1)
    · rw [if_pos hcond, if_pos hcond, List.map_cons, List.map_nil, List.map_cons,
        List.map_nil, dictLines_mkChunkDict]
    · rw [if_neg hcond, if_neg hcond, List.map_nil, List.map_nil]
theorem walkChildren_lines (language : String) (content : Str) :
    ∀ (pc : Option Str) (cs : TSChildList),
      (walkChildren language content pc cs).map dictLines
        = (chunkableSpansChildren language cs).map some
  | _, TSChildList.nil => rfl
  | pc, TSChildList.cons lbl c rest => by
    simp only [walkChildren, chunkableSpansChildren, List.map_append]
    rw [walk_lines language content pc c, walkChildren_lines language content pc rest]
end

mutual
theorem chunkableSpans_ge (language : String) :
    ∀ t : TSNode, ∀ ab ∈ chunkableSpans language t, 2 ≤ ab.2 - ab.1
  | .mk kind sr er sb eb cs, ab, hab => by
    simp only [chunkableSpans] at hab
    rcases List.mem_append.1 hab with h1 | h1
    · by_cases hcond : chunkKind language kind = true ∧ 2 ≤ er + 1 - (sr + 1)
      · rw [if_pos hcond] at h1
        rw [List.mem_singleton] at h1
        subst h1
        exact hcond.2
      · rw [if_neg hcond] at h1
        exact absurd h1 (List.not_mem_nil ab)
    · exact chunkableSpansChildren_ge language cs ab h1
theorem chunkableSpansChildren_ge (language : String) :
    ∀ cs : TSChildList, ∀ ab ∈ chunkableSpansChildren language cs, 2 ≤ ab.2 - ab.1
  | TSChildList.nil, ab, hab => absurd hab (List.not_mem_nil ab)
  | TSChildList.cons lbl c rest, ab, hab => by
    simp only [chunkableSpansChildren] at hab
    rcases List.mem_append.1 hab with h1 | h1
    · exact chunkableSpans_ge language c ab h1
    · exact chunkableSpansChildren_ge language rest ab h1
end

/-- C3 (amended): for a supported language tag, chunk_code emits exactly
the chunkable nodes whose 1-based line span satisfies
end_line - start_line >= 2 (spans of at least three lines), in document
order, each chunk carrying the line span of that node; every collected span
satisfies the bound, so no emitted chunk covers fewer than three lines;
the three-line-plus-one-line example yields exactly the one chunk for the
three-line function. -/
theorem chunk_line_span_guard :
    ∀ (language : String) (content : Str) (tree : TSNode),
      (supportedChunkLang language = true →
        (chunk_code language content tree).map dictLines
          = (chunkableSpans language tree).map some) ∧
      (∀ ab ∈ chunkableSpans language tree, 2 ≤ ab.2 - ab.1) ∧
      chunk_code "python" threeOneFnSrc threeOneFnTree = [threeOneFnChunk] := by
  intro language content tree
  refine ⟨fun h => ?_, chunkableSpans_ge language tree, rfl⟩
  unfold chunk_code
  rw [if_pos h]
  exact walk_lines language content none tree

/-- Witness for C3 on the three-line-plus-one-line python example. -/
theorem chunk_line_span_guard_witness :
    supportedChunkLang "python" = true ∧
    (chunk_code "python" threeOneFnSrc threeOneFnTree).map dictLines
      = (chunkableSpans "python" threeOneFnTree).map some ∧
    ((1 : Nat), (3 : Nat)) ∈ chunkableSpans "python" threeOneFnTree ∧
    2 ≤ (3 : Nat) - 1 :=
  ⟨rfl,
    (chunk_line_span_guard "python" threeOneFnSrc threeOneFnTree).1 rfl,
    by decide,
    (chunk_line_span_guard "python" threeOneFnSrc threeOneFnTree).2.1 (1, 3) (by decide)⟩

/-- C3 counterexample: a python function_definition spanning exactly two
source lines (rows 0 and 1) is chunkable and spans 2 lines, yet chunk_code
emits nothing for it, because the guard requires
end_line - start_line >= 2, that is at least three lines. -/
theorem chunk_two_line_fn_cex :
    chunk_code "python" twoLineFnSrc twoLineFnTree = [] ∧
    twoLineFnNode.kind = "function_definition" ∧
    twoLineFnNode.endRow - twoLineFnNode.startRow + 1 = 2 ∧
    twoLineFnTree.children = TSChildList.cons none twoLineFnNode TSChildList.nil := by
  exact ⟨rfl, rfl, rfl, rfl⟩

theorem mkChunkDict_keys (a b : Nat) (body : Str) (t : String) :
    ∀ nameOpt : Option Str,
      (mkChunkDict a b body t nameOpt).map Prod.fst
        = ["start_line", "end_line", "content", "node_type"] ∨
      (mkChunkDict a b body t nameOpt).map Prod.fst
        = ["start_line", "end_line", "content", "node_type", "name"]
  | none => Or.inl rfl
  | some _ => Or.inr rfl

mutual
theorem walk_keys (language : String) (content : Str) :
    ∀ (pc : Option Str) (t : TSNode) (d : ChunkDict),
      d ∈ walk_and_chunk language content pc t →
      d.map Prod.fst = ["start_line", "end_line", "content", "node_type"] ∨
      d.map Prod.fst = ["start_line", "end_line", "content", "node_type", "name"]
  | pc, .mk kind sr er sb eb cs, d, hd => by
    simp only [walk_and_chunk] at hd
    rcases List.mem_append.1 hd with h1 | h1
    · by_cases hcond : (classify language pc kind).1 = true ∧ 2 ≤ er + 1 - (sr + 1)
      · rw [if_pos hcond, List.mem_singleton] at h1
        subst h1
        exact mkChunkDict_keys _ _ _ _ _
      · rw [if_neg hcond] at h1
        exact absurd h1 (List.not_mem_nil d)
    · exact walkChildren_keys language content _ cs d h1
theorem walkChildren_keys (language : String) (content : Str) :
    ∀ (pc : Option Str) (cs : TSChildList) (d : ChunkDict),
      d ∈ walkChildren language content pc cs →
      d.map Prod.fst = ["start_line", "end_line", "content", "node_type"] ∨
      d.map Prod.fst = ["start_line", "end_line", "content", "node_type", "name"]
  | _, TSChildList.nil, d, hd => absurd hd (List.not_mem_nil d)
  | pc, TSChildList.cons lbl c rest, d, hd => by
    simp only [walkChildren] at hd
    rcases List.mem_append.1 hd with h1 | h1
    · exact walk_keys language content pc c d h1
    · exact walkChildren_keys language content pc rest d h1
end

/-- C4 (amended): every emitted chunk record contains exactly the keys
start_line, end_line, content and node_type, plus name when a name was
extracted; the record never contains the enclosing-class name — nesting in
a class is reflected only in the method node_type, as the concrete
class-with-method example shows. -/
theorem chunk_record_fields :
    (∀ (language : String) (content : Str) (pc : Option Str) (t : TSNode) (d : ChunkDict),
        d ∈ walk_and_chunk language content pc t →
        d.map Prod.fst = ["start_line", "end_line", "content", "node_type"] ∨
        d.map Prod.fst = ["start_line", "end_line", "content", "node_type", "name"]) ∧
    chunk_code "python" classMethodSrc classMethodTree = [classChunk, methodChunk] :=
  ⟨fun language content pc t d hd => walk_keys language content pc t d hd, rfl⟩

/-- Witness for C4 at the emitted method chunk of the class example. -/
theorem chunk_record_fields_witness :
    methodChunk ∈ walk_and_chunk "python" classMethodSrc none classMethodTree ∧
    (methodChunk.map Prod.fst = ["start_line", "end_line", "content", "node_type"] ∨
      methodChunk.map Prod.fst = ["start_line", "end_line", "content", "node_type", "name"]) :=
  ⟨by decide,
    chunk_record_fields.1 "python" classMethodSrc none classMethodTree methodChunk (by decide)⟩

/-- C4 counterexample: the chunk emitted for a method nested inside class
Foo carries exactly the keys start_line, end_line, content, node_type and
name; no key holds the enclosing-class name and the string Foo appears in
none of its values, refuting the claim that the emitted record contains
the enclosing-class name. -/
theorem chunk_no_class_field_cex :
    chunk_code "python" classMethodSrc classMethodTree = [classChunk, methodChunk] ∧
    methodChunk.map Prod.fst = ["start_line", "end_line", "content", "node_type", "name"] ∧
    PyVal.str "Foo".data ∉ methodChunk.map Prod.snd := by
  exact ⟨rfl, rfl, by decide⟩

/-!
Supporting facts: the miner output is duplicate-free, which justifies the
Nodup hypotheses of the hybrid-scorer theorems when the two functions are
composed as in hybrid_graph.rs line 17.
-/

theorem bump_keys (f : Str) :
    ∀ m : List (Str × Nat),
      (bump m f).map Prod.fst
        = if f ∈ m.map Prod.fst then m.map Prod.fst else m.map Prod.fst ++ [f]
  | [] => by simp [bump]
  | (g, n) :: rest => by
    unfold bump
    by_cases hg : g = f
    · subst hg
      simp
    · rw [if_neg hg]
      simp only [List.map_cons]
      rw [bump_keys f rest]
      by_cases hm : f ∈ rest.map Prod.fst
      · rw [if_pos hm, if_pos (List.mem_cons_of_mem _ hm)]
      · rw [if_neg hm,
          if_neg (fun h => (List.mem_cons.1 h).elim (fun h1 => hg h1.symm) hm)]
        rfl

theorem bump_keys_nodup (f : Str) (m : List (Str × Nat))
    (h : (m.map Prod.fst).Nodup) : ((bump m f).map Prod.fst).Nodup := by
  rw [bump_keys]
  by_cases hm : f ∈ m.map Prod.fst
  · rw [if_pos hm]
    exact h
  · rw [if_neg hm]
    rw [List.nodup_append]
    exact ⟨h, List.nodup_singleton f, fun x hx => by
      rw [List.mem_singleton]
      exact fun h1 => hm (h1 ▸ hx)⟩

theorem commitFold_keys_nodup (target : Str) :
    ∀ (files : List Str) (acc : List (Str × Nat)),
      ((acc.map Prod.fst).Nodup) →
      ((files.foldl
          (fun acc2 file =>
            if file ≠ target ∧ strEndsWith file target = false then bump acc2 file
            else acc2)
          acc).map Prod.fst).Nodup := by
  intro files
  induction files with
  | nil => intro acc hacc; exact hacc
  | cons file rest ih =>
    intro acc hacc
    rw [List.foldl_cons]
    by_cases hc : file ≠ target ∧ strEndsWith file target = false
    · rw [if_pos hc]
      exact ih _ (bump_keys_nodup file acc hacc)
    · rw [if_neg hc]
      exact ih _ hacc

theorem blocksFold_keys_nodup (target : Str) :
    ∀ (blocks : List (List Str)) (acc : List (Str × Nat)),
      ((acc.map Prod.fst).Nodup) →
      ((blocks.foldl
          (fun acc files =>
            if files.any (matchesTarget target) then
              files.foldl
                (fun acc2 file =>
                  if file ≠ target ∧ strEndsWith file target = false then bump acc2 file
                  else acc2)
                acc
            else acc)
          acc).map Prod.fst).Nodup := by
  intro blocks
  induction blocks with
  | nil => intro acc hacc; exact hacc
  | cons b rest ih =>
    intro acc hacc
    rw [List.foldl_cons]
    by_cases hb : b.any (matchesTarget target) = true
    · rw [if_pos hb]
      exact ih _ (commitFold_keys_nodup target b acc hacc)
    · rw [if_neg hb]
      exact ih _ hacc

theorem coOccurrence_keys_nodup (target stdoutSep : Str) :
    ((coOccurrence target stdoutSep).map Prod.fst).Nodup := by
  unfold coOccurrence
  exact blocksFold_keys_nodup target (parseCommitBlocks stdoutSep) [] List.nodup_nil

theorem relatedFromEntries_nodup (entries : List (Str × Nat)) (limit : Nat)
    (h : (entries.map Prod.fst).Nodup) : (relatedFromEntries entries limit).Nodup := by
  unfold relatedFromEntries relatedEntries
  have hs : ((sortDescBy (fun p => p.2) entries).map Prod.fst).Nodup :=
    ((sortDescBy_perm _ entries).map Prod.fst).nodup_iff.2 h
  exact List.Nodup.sublist ((List.take_sublist _ _).map Prod.fst) hs

theorem related_files_result_nodup :
    ∀ (shuffle : List (Str × Nat) → List (Str × Nat)) (target : Str) (limit : Nat)
      (probe scan : Option ProcOutput) (res : List Str),
      (∀ l, (shuffle l).Perm l) →
      get_related_files shuffle target limit probe scan = Except.ok res →
      res.Nodup := by
  intro shuffle target limit probe scan res hsh heq
  cases probe with
  | none => exact Except.noConfusion heq
  | some o1 =>
    simp only [get_related_files] at heq
    by_cases hs : o1.success = true
    · rw [if_pos hs] at heq
      cases scan with
      | none => exact Except.noConfusion heq
      | some o2 =>
        injection heq with heq
        subst heq
        refine relatedFromEntries_nodup _ limit ?_
        exact ((hsh (coOccurrence target o2.stdout)).map Prod.fst).nodup_iff.2
          (coOccurrence_keys_nodup target o2.stdout)
    · rw [if_neg hs] at heq
      injection heq with heq
      subst heq
      exact List.nodup_nil
